import Mathlib

/-!
Verification of the probabilistic core of an HMM part-of-speech tagger
(`p1.py`): corpus preprocessing, the three decoders (`eager_tag`,
`viterbi_tag`, `forward_backward_tag`), the `run` dispatcher, the
`logsumexp` utility and `calc_accuracy`.

Modelling conventions:
* words and tags are `String`s; a token is a pair `(word, tag)`; a
  sentence is a list of tokens, exactly as in the Python code;
* log-probabilities (Python floats) are modelled as integers `ℤ`
  (the decoders use only the ordered additive structure of the scores);
  the transcendental helpers `math.log` / `math.exp` and the sentinel
  `self.min_log_prob = -sys.float_info.max` are carried as fields of the
  `Tagger` structure, since the code never relies on their numeric values
  except through the branch structure of `logsumexp`;
* the smoothed distributions (`WittenBellProbDist`, an external library)
  are black boxes: the `emissions` and `transitions` fields of `Tagger`
  model the `logprob` queries of the already-built distributions;
* Python `max(...)` over a nonempty list / over `dict.items()` keeps the
  first maximal element; it is modelled by `maxOf` / `argmaxFirst`.
  Python dictionaries keyed by tags and filled by iterating `self.tags`
  are modelled as association lists in the order of the `tags` list;
* out-of-range indexing (which would raise `IndexError` in Python) is
  modelled with `getD` defaults; no theorem below depends on the junk
  values, all inputs are constrained to the shapes the program actually
  handles;
* the `ZeroDivisionError` that Python raises on `x / 0.0` is modelled by
  an `Except.error` result in `calc_accuracy`.
-/

/-- A token of the internal representation: `(word, tag)`. -/
abbrev Token := String × String

/-- A sentence: an ordered list of `(word, tag)` tokens. -/
abbrev Sentence := List Token

/-- A raw CoNLL-U token as delivered by the external corpus loader:
only the `form` and `upos` fields are consumed by the core. -/
structure ConlluToken where
  form : String
  upos : String
deriving DecidableEq, Repr

/-- `Tagger.preprocess_sentences` (p1.py lines 39-62): prepend the
`('<s>', 'START')` marker, lowercase every form, pair it with its `upos`
tag, append the `('</s>', 'END')` marker.  The Python `for` loops that
grow `sent` and `sents` by appending are modelled by `foldl` with list
append. -/
def preprocess_sentences (sentences : List (List ConlluToken)) : List Sentence :=
  sentences.foldl
    (fun sents sentence =>
      sents ++
        [sentence.foldl
          (fun sent tok => sent ++ [(tok.form.toLower, tok.upos)])
          [("<s>", "START")] ++ [("</s>", "END")]])
    []

/-- Line 30 of `p1.py`:
`self.tags = set([tag for sentence in self.train_sents for (_, tag) in sentence])`,
computed on the *preprocessed* training sentences.  The Python `set` is
modelled as a duplicate-free list; its iteration order is unspecified in
Python, and only membership in it is used in the theorems below. -/
def computeTags (sents : List Sentence) : List String :=
  ((sents.flatMap (fun sentence => sentence.map (fun tok => tok.2)))).dedup

/-- The tagger state after `__init__`: the tag list (Python's `self.tags`
in its iteration order), the smoothed emission and transition log-prob
queries (`self.emissions[tag].logprob word`, `self.transitions.logprob
(prev, tag)`), the float helpers `math.log` / `math.exp`, and the
sentinel `self.min_log_prob`. -/
structure Tagger where
  tags : List String
  emissions : String → String → ℤ
  transitions : String × String → ℤ
  log : ℤ → ℤ
  exp : ℤ → ℤ
  min_log_prob : ℤ

/-- Python `max` over a nonempty list of numbers (first maximal element;
an empty argument raises in Python and is given the junk value `0`
here). -/
def maxOf : List ℤ → ℤ
  | [] => 0
  | x :: xs => xs.foldl max x

/-- Python `max(l, key = f)`: the first element of `l` whose `f`-value is
maximal; `none` on the empty list (where Python raises). -/
def argmaxFirst {α : Type} (f : α → ℤ) : List α → Option α
  | [] => none
  | x :: xs => some (xs.foldl (fun b y => if f b < f y then y else b) x)

/-- A column of a dynamic-programming table: a Python dict from tags to
log-probabilities, modelled as an association list in insertion order. -/
abbrev Col := List (String × ℤ)

/-- Python dict lookup `col[k]` (junk value `0` where Python would raise
`KeyError`). -/
def lookupD (col : Col) (k : String) : ℤ :=
  (col.lookup k).getD 0

/-- `Tagger.logsumexp` (p1.py lines 282-295), branch for branch. -/
def Tagger.logsumexp (T : Tagger) (vals : List ℤ) : ℤ :=
  if vals.length = 0 then T.min_log_prob
  else
    let m := maxOf vals
    if m = T.min_log_prob then T.min_log_prob
    else m + T.log ((vals.map (fun val => T.exp (val - m))).sum)

/-- `Tagger.combine_dicts` (p1.py lines 267-279): pointwise sum over the
keys of the first dict. -/
def combine_dicts (dict1 dict2 : Col) : Col :=
  dict1.map (fun e => (e.1, e.2 + lookupD dict2 e.1))

/-- The body of the loop of `eager_tag` (p1.py lines 111-122): walk the
remaining tokens, predicting for each word the tag maximizing
`emission + transition from the previously chosen tag`. -/
def eagerGo (T : Tagger) : String → List Token → List Token
  | _, [] => []
  | prev_tag, token :: rest =>
    let word := token.1
    let probs := T.tags.map
      (fun tag => (tag, T.emissions tag word + T.transitions (prev_tag, tag)))
    let max_prob_tag := ((argmaxFirst Prod.snd probs).getD ("", 0)).1
    (word, max_prob_tag) :: eagerGo T max_prob_tag rest

/-- `Tagger.eager_tag` (p1.py lines 101-125).  Note that, as in the
source, the loop runs over `sentence[1:]` — including the final
`('</s>', 'END')` token — and `sentence[-1]` is appended afterwards. -/
def eager_tag (T : Tagger) (sentence : Sentence) : Sentence :=
  sentence.headD ("", "") ::
    eagerGo T "START" (sentence.drop 1) ++ [sentence.getLastD ("", "")]

/-- The initial Viterbi column (p1.py lines 138-141):
`viterbi[q, 1] = logprob (START, q) + logprob of the first word under q`. -/
def initialColV (T : Tagger) (w1 : String) : Col :=
  T.tags.map (fun tag => (tag, T.transitions ("START", tag) + T.emissions tag w1))

/-- One step of the Viterbi recurrence (p1.py lines 144-150). -/
def nextColV (T : Tagger) (prev : Col) (word : String) : Col :=
  T.tags.map (fun tag =>
    (tag, maxOf (T.tags.map (fun prev_tag =>
      lookupD prev prev_tag + T.transitions (prev_tag, tag) + T.emissions tag word))))

/-- The list of columns produced by a left-to-right DP loop that starts
from column `c` and appends one column per remaining word, each computed
from its predecessor by `step`.  (Shared by `viterbi_tag` and
`forward_backward_tag`.) -/
def scanCols (step : Col → String → Col) (c : Col) : List String → List Col
  | [] => [c]
  | w :: ws => c :: scanCols step (step c w) ws

/-- `Tagger.viterbi_tag` (p1.py lines 128-165).  The DP loop runs over
`sentence[i]` for `i = 2 .. len-1` (so the last column is computed from
the `'</s>'` marker word, as in the source); the final `END` column is
appended; the backtrack takes, for position `i = 1 .. len-2`, the
first tag of maximal value in column `viterbi[i-1]`. -/
def viterbi_tag (T : Tagger) (sentence : Sentence) : Sentence :=
  let cols := scanCols (nextColV T)
    (initialColV T (sentence.getD 1 ("", "")).1)
    ((sentence.drop 2).map Prod.fst)
  let final : Col :=
    [("END", maxOf (T.tags.map (fun prev_tag =>
      lookupD (cols.getLastD []) prev_tag + T.transitions (prev_tag, "END"))))]
  let table := cols ++ [final]
  ("<s>", "START") ::
    (List.range' 1 (sentence.length - 2)).map (fun i =>
      ((sentence.getD i ("", "")).1,
        ((argmaxFirst Prod.snd (table.getD (i - 1) [])).getD ("", 0)).1))
    ++ [("</s>", "END")]

/-- One forward step of `forward_backward_tag` (p1.py lines 199, 201),
aggregating over predecessors with `logsumexp`. -/
def fwdStep (T : Tagger) (prev : Col) (word : String) : Col :=
  T.tags.map (fun tag =>
    (tag, T.logsumexp (T.tags.map (fun prev_tag =>
      lookupD prev prev_tag + T.transitions (prev_tag, tag) + T.emissions tag word))))

/-- One backward step of `forward_backward_tag` (p1.py lines 200, 202),
aggregating over successors with `logsumexp`. -/
def bwdStep (T : Tagger) (prev : Col) (word : String) : Col :=
  T.tags.map (fun tag =>
    (tag, T.logsumexp (T.tags.map (fun next_tag =>
      lookupD prev next_tag + T.transitions (tag, next_tag) + T.emissions next_tag word))))

/-- `Tagger.forward_backward_tag` (p1.py lines 167-234).  The single
Python loop fills the two independent tables simultaneously: the forward
table over the words `sentence[2..len-2]` and the backward table over
the same words in reverse order; both are modelled by `scanCols`.  The
trims `backward.reverse(); backward = backward[1:]; forward =
forward[:-1]` and the backtrack are reproduced literally. -/
def forward_backward_tag (T : Tagger) (sentence : Sentence) : Sentence :=
  let w1 := (sentence.getD 1 ("", "")).1
  let fwords := ((sentence.drop 2).dropLast).map Prod.fst
  let initial_f := T.tags.map (fun tag =>
    (tag, T.transitions ("START", tag) + T.emissions tag w1))
  let initial_b := T.tags.map (fun tag => (tag, T.transitions (tag, "END")))
  let fcols := scanCols (fwdStep T) initial_f fwords
  let bcols := scanCols (bwdStep T) initial_b fwords.reverse
  let final_f : Col :=
    [("END", T.logsumexp (T.tags.map (fun prev_tag =>
      lookupD (fcols.getLastD []) prev_tag + T.transitions (prev_tag, "END"))))]
  let final_b : Col :=
    [("START", T.logsumexp (T.tags.map (fun next_tag =>
      lookupD (bcols.getLastD []) next_tag + T.transitions ("START", next_tag) +
        T.emissions next_tag w1)))]
  let forward := (fcols ++ [final_f]).dropLast
  let backward := ((bcols ++ [final_b]).reverse).drop 1
  ("<s>", "START") ::
    (List.range (sentence.length - 2)).map (fun i =>
      ((sentence.getD (i + 1) ("", "")).1,
        ((argmaxFirst Prod.snd
          (combine_dicts (forward.getD i []) (backward.getD i []))).getD ("", 0)).1))
    ++ [("</s>", "END")]

/-- `Tagger.run` (p1.py lines 236-264): dispatch on the integer `algo`,
mapping the selected decoder over the test corpus; any other selector
returns `None`. -/
def run (T : Tagger) (test_sents : List Sentence) (algo : Int) : Option (List Sentence) :=
  if algo = 1 then some (test_sents.map (eager_tag T))
  else if algo = 2 then some (test_sents.map (viterbi_tag T))
  else if algo = 3 then some (test_sents.map (forward_backward_tag T))
  else none

/-- `Tagger.calc_accuracy` (p1.py lines 297-320): count matching tag
positions over the test corpus and divide.  `self.test_sents` is passed
explicitly.  The final unguarded float division is modelled by `Except`:
Python raises `ZeroDivisionError` when `total` is `0.0`. -/
def calc_accuracy (test_sents predictions : List Sentence) : Except String ℚ :=
  let acc := (List.range test_sents.length).foldl
    (fun acc i =>
      let pred_sent := predictions.getD i []
      let label_sent := test_sents.getD i []
      (List.range label_sent.length).foldl
        (fun acc2 j =>
          let pred_tag := (pred_sent.getD j ("", "")).2
          let label_tag := (label_sent.getD j ("", "")).2
          (if pred_tag = label_tag then acc2.1 + 1 else acc2.1, acc2.2 + 1))
        acc)
    ((0 : ℚ), (0 : ℚ))
  if acc.2 = 0 then Except.error "float division by zero"
  else Except.ok (acc.1 / acc.2)

/-- The joint log-probability of a candidate tag sequence `qs` for the
interior words `ws`, in the sense of the specification of the Viterbi
decoder: transitions from `START` through `qs` to `END`, plus the
emissions of the observed words.  Modelled from the spec's words (this
quantity is not computed by the program; it is the objective the spec
claims `viterbi_tag` maximizes). -/
def scoreFrom (T : Tagger) (prev : String) : List (String × String) → ℤ
  | [] => 0
  | (w, q) :: rest => T.transitions (prev, q) + T.emissions q w + scoreFrom T q rest

/-- All tag sequences of a given length drawn from the list `tags`
(the brute-force candidate space of the spec's Viterbi property). -/
def tagSeqs (tags : List String) : Nat → List (List String)
  | 0 => [[]]
  | n + 1 => (tagSeqs tags n).flatMap (fun qs => tags.map (fun t => qs ++ [t]))

/-- Joint log-probability of the complete candidate `qs` for words `ws`,
including the closing transition into `END`.  Modelled from the spec's
words. -/
def jointScore (T : Tagger) (ws qs : List String) : ℤ :=
  scoreFrom T "START" (ws.zip qs) + T.transitions (qs.getLastD "START", "END")

/-- The best joint log-probability of any tag prefix of length
`ws.length` that ends in tag `t` — the semantic value of the Viterbi
table entry `viterbi[ws.length][t]`. -/
def bestEnd (T : Tagger) (ws : List String) (t : String) : ℤ :=
  maxOf ((tagSeqs T.tags (ws.length - 1)).map
    (fun qs => scoreFrom T "START" (ws.zip (qs ++ [t]))))

/-- The tags of the interior tokens of a sentence (boundary markers
stripped). -/
def interiorTags (s : Sentence) : List String :=
  ((s.drop 1).dropLast).map Prod.snd

/-- A one-tag tagger with constant-zero log-probabilities, used to
evaluate the decoders on concrete inputs. -/
def T0 : Tagger :=
  { tags := ["A"], emissions := fun _ _ => 0, transitions := fun _ => 0,
    log := fun _ => 0, exp := fun _ => 0, min_log_prob := -1000 }

/-- A concrete well-formed four-token sentence. -/
def s4 : Sentence := [("<s>", "START"), ("a", "X"), ("b", "X"), ("</s>", "END")]

/-- The same words as `s4` with different gold tags on the interior
tokens. -/
def s4b : Sentence := [("<s>", "START"), ("a", "Y"), ("b", "Z"), ("</s>", "END")]

/-- Transition log-probabilities of a two-tag model on which the
backtracking of `viterbi_tag` is suboptimal: the per-column argmax path
goes through `A` at position 1, but every continuation of `A` is
penalized, so the best complete path goes through `B`. -/
def trans2 : String × String → ℤ
  | ("START", "A") => 0
  | ("START", "B") => -1
  | ("B", "A") => 0
  | ("A", "END") => 0
  | ("B", "END") => 0
  | _ => -10

/-- The two-tag tagger built on `trans2`. -/
def T2 : Tagger :=
  { tags := ["A", "B"], emissions := fun _ _ => 0, transitions := trans2,
    log := fun _ => 0, exp := fun _ => 0, min_log_prob := -1000 }

/-- A two-interior-word sentence for the Viterbi analysis. -/
def s2 : Sentence := [("<s>", "START"), ("u", "X"), ("v", "X"), ("</s>", "END")]

/-- A one-sentence, one-token raw training corpus. -/
def raw0 : List (List ConlluToken) := [[⟨"The", "DET"⟩]]

/-- A tagger whose tag list is exactly the one `__init__` computes from
`raw0`, with transition scores favouring the `END` tag. -/
def T1 : Tagger :=
  { tags := computeTags (preprocess_sentences raw0), emissions := fun _ _ => 0,
    transitions := fun pq => if pq.2 = "END" then 0 else -1,
    log := fun _ => 0, exp := fun _ => 0, min_log_prob := -1000 }

/-- The preprocessed form of the single sentence of `raw0`. -/
def sent1 : Sentence := [("<s>", "START"), ("the", "DET"), ("</s>", "END")]

/-- The number of positions `j < label.length` where the predicted tag
equals the gold tag (the per-sentence contribution to `num_correct`). -/
def matchCount (pred label : Sentence) : Nat :=
  (List.range label.length).countP
    (fun j => decide ((pred.getD j ("", "")).2 = (label.getD j ("", "")).2))

/-- A for-loop that grows a list by appending one element per iteration
is a `map`. -/
theorem foldl_append_map {α β : Type} (l : List α) (f : α → β) (init : List β) :
    l.foldl (fun acc x => acc ++ [f x]) init = init ++ l.map f := by
  induction l generalizing init with
  | nil => simp
  | cons a l ih => simp [ih, List.append_assoc]

/-- `preprocess_sentences` maps each raw sentence to the marked,
lowercased token list. -/
theorem preprocess_eq_map (sentences : List (List ConlluToken)) :
    preprocess_sentences sentences = sentences.map (fun sentence =>
      ("<s>", "START") ::
        sentence.map (fun tok => (tok.form.toLower, tok.upos)) ++ [("</s>", "END")]) := by
  unfold preprocess_sentences
  rw [foldl_append_map]
  simp only [List.nil_append]
  refine List.map_congr_left (fun sentence _ => ?_)
  rw [foldl_append_map]
  simp

/-- C6: for every input corpus, `preprocess_sentences` returns one output
sentence per input sentence in the same order; each output sentence is
`('<s>', START)`, then the input tokens in order with lowercased forms
paired with their `upos` tags, then `('</s>', END)`; no token is dropped
or reordered. -/
theorem preprocess_sentences_spec (sentences : List (List ConlluToken)) :
    preprocess_sentences sentences = sentences.map (fun sentence =>
      ("<s>", "START") ::
        sentence.map (fun tok => (tok.form.toLower, tok.upos)) ++ [("</s>", "END")]) :=
  preprocess_eq_map sentences

/-- C10: `run` applies the decoder selected by `algo` (1 = eager,
2 = viterbi, 3 = forward-backward) to every test sentence in order and
returns the list of predictions; every other selector returns `None`. -/
theorem run_spec (T : Tagger) (test_sents : List Sentence) :
    run T test_sents 1 = some (test_sents.map (eager_tag T)) ∧
    run T test_sents 2 = some (test_sents.map (viterbi_tag T)) ∧
    run T test_sents 3 = some (test_sents.map (forward_backward_tag T)) ∧
    ∀ algo : Int, algo ≠ 1 → algo ≠ 2 → algo ≠ 3 → run T test_sents algo = none := by
  refine ⟨rfl, rfl, rfl, fun algo h1 h2 h3 => ?_⟩
  simp [run, h1, h2, h3]

/-- Witness for `run_spec` at a concrete tagger, corpus and rejected
selector. -/
theorem run_spec_witness :
    run T0 [s4] 1 = some [eager_tag T0 s4] ∧
    run T0 [s4] 2 = some [viterbi_tag T0 s4] ∧
    run T0 [s4] 3 = some [forward_backward_tag T0 s4] ∧
    run T0 [s4] 0 = none := by
  obtain ⟨h1, h2, h3, h4⟩ := run_spec T0 [s4]
  exact ⟨by simpa using h1, by simpa using h2, by simpa using h3,
    h4 0 (by decide) (by decide) (by decide)⟩

/-- C5: `logsumexp` returns the sentinel on the empty list; returns the
sentinel directly when the maximum equals the sentinel; and otherwise
returns `m + log (sum (exp (x - m)))` with `m` the maximum. -/
theorem logsumexp_spec (T : Tagger) (vals : List ℤ) :
    (vals = [] → T.logsumexp vals = T.min_log_prob) ∧
    (vals ≠ [] → maxOf vals = T.min_log_prob → T.logsumexp vals = T.min_log_prob) ∧
    (vals ≠ [] → maxOf vals ≠ T.min_log_prob →
      T.logsumexp vals =
        maxOf vals + T.log ((vals.map (fun val => T.exp (val - maxOf vals))).sum)) := by
  refine ⟨fun h => ?_, fun h hm => ?_, fun h hm => ?_⟩
  · simp [Tagger.logsumexp, h]
  · rw [Tagger.logsumexp, if_neg (by simpa using h)]
    simp [hm]
  · rw [Tagger.logsumexp, if_neg (by simpa using h)]
    simp only [if_neg hm]

/-- Witness for `logsumexp_spec`: all three branches exercised on
concrete inputs. -/
theorem logsumexp_spec_witness :
    T0.logsumexp [] = T0.min_log_prob ∧
    T0.logsumexp [-1000] = T0.min_log_prob ∧
    T0.logsumexp [5] = 5 + T0.log (([(5 : ℤ)].map (fun val => T0.exp (val - 5))).sum) := by
  refine ⟨(logsumexp_spec T0 []).1 rfl,
    (logsumexp_spec T0 [-1000]).2.1 (by decide) (by decide), ?_⟩
  have h := (logsumexp_spec T0 [5]).2.2 (by decide) (by decide)
  simpa using h

/-- C4 (code bug): `calc_accuracy` does not guard the zero-total case; on
an empty test set the unguarded division `num_correct / total` raises
`ZeroDivisionError` (modelled as the error result). -/
theorem calc_accuracy_empty_crash :
    calc_accuracy [] [] = Except.error "float division by zero" := by
  rfl

/-- C1 (code bug): on a four-token sentence, `eager_tag` returns five
tokens — its loop over `sentence[1:]` also predicts a tag for the final
`'</s>'` marker before `sentence[-1]` is appended — while `viterbi_tag`
and `forward_backward_tag` preserve the length. -/
theorem decoder_lengths_concrete :
    (eager_tag T0 s4).length = s4.length + 1 ∧
    (viterbi_tag T0 s4).length = s4.length ∧
    (forward_backward_tag T0 s4).length = s4.length := by
  decide

/-- C2 counterexample: the tag set computed at line 30 of `p1.py` from
the preprocessed training sentences contains the sentinel `START`, and a
decoder can emit `END` as the predicted tag of an interior token. -/
theorem tags_include_sentinels_cex :
    "START" ∈ computeTags (preprocess_sentences raw0) ∧
    (eager_tag T1 sent1).getD 1 ("", "") = ("the", "END") := by
  decide


theorem computeTags_spec (raw : List (List ConlluToken)) (h : raw ≠ []) (t : String) :
    t ∈ computeTags (preprocess_sentences raw) ↔
      (t = "START" ∨ t = "END" ∨ ∃ sent ∈ raw, ∃ tok ∈ sent, tok.upos = t) := by
  obtain ⟨sent0, hsent0⟩ := List.exists_mem_of_ne_nil raw h
  rw [computeTags, List.mem_dedup, preprocess_eq_map, List.mem_flatMap]
  constructor
  · rintro ⟨sentence, hsentence, htok⟩
    rw [List.mem_map] at hsentence
    obtain ⟨sent, hsent, rfl⟩ := hsentence
    rw [List.mem_map] at htok
    obtain ⟨tok, htok, rfl⟩ := htok
    rcases List.mem_cons.1 htok with rfl | h2
    · exact Or.inl rfl
    rcases List.mem_append.1 h2 with h3 | h3
    · obtain ⟨tok0, htok0, rfl⟩ := List.mem_map.1 h3
      exact Or.inr (Or.inr ⟨sent, hsent, tok0, htok0, rfl⟩)
    · rw [List.mem_singleton] at h3
      subst h3
      exact Or.inr (Or.inl rfl)
  · rintro (rfl | rfl | ⟨sent, hsent, tok, htok, rfl⟩)
    · refine ⟨_, List.mem_map_of_mem _ hsent0, ?_⟩
      have hm : ("<s>", "START") ∈
          ("<s>", "START") ::
            sent0.map (fun tok => (tok.form.toLower, tok.upos)) ++ [("</s>", "END")] :=
        List.mem_cons_self _ _
      exact List.mem_map_of_mem _ hm
    · refine ⟨_, List.mem_map_of_mem _ hsent0, ?_⟩
      have hm : ("</s>", "END") ∈
          ("<s>", "START") ::
            sent0.map (fun tok => (tok.form.toLower, tok.upos)) ++ [("</s>", "END")] :=
        List.mem_cons_of_mem _ (List.mem_append_right _ (List.mem_singleton_self _))
      exact List.mem_map_of_mem _ hm
    · refine ⟨_, List.mem_map_of_mem _ hsent, ?_⟩
      have hm : (tok.form.toLower, tok.upos) ∈
          ("<s>", "START") ::
            sent.map (fun tok => (tok.form.toLower, tok.upos)) ++ [("</s>", "END")] :=
        List.mem_cons_of_mem _
          (List.mem_append_left _ (List.mem_map_of_mem _ htok))
      exact List.mem_map_of_mem _ hm

theorem computeTags_spec_witness :
    "DET" ∈ computeTags (preprocess_sentences raw0) ↔
      ("DET" = "START" ∨ "DET" = "END" ∨
        ∃ sent ∈ raw0, ∃ tok ∈ sent, tok.upos = "DET") :=
  computeTags_spec raw0 (by decide) "DET"

theorem decoders_preserve_boundaries (T : Tagger) (s : Sentence)
    (hh : s.head? = some ("<s>", "START")) (hl : s.getLast? = some ("</s>", "END")) :
    ((eager_tag T s).head? = some ("<s>", "START") ∧
      (eager_tag T s).getLast? = some ("</s>", "END")) ∧
    ((viterbi_tag T s).head? = some ("<s>", "START") ∧
      (viterbi_tag T s).getLast? = some ("</s>", "END")) ∧
    ((forward_backward_tag T s).head? = some ("<s>", "START") ∧
      (forward_backward_tag T s).getLast? = some ("</s>", "END")) := by
  refine ⟨⟨?_, ?_⟩, ⟨?_, ?_⟩, ⟨?_, ?_⟩⟩
  · simp [eager_tag, List.headD_eq_head?, hh]
  · rw [eager_tag, List.getLast?_concat, List.getLastD_eq_getLast?, hl]
    rfl
  · rfl
  · rw [viterbi_tag, List.getLast?_concat]
  · rfl
  · rw [forward_backward_tag, List.getLast?_concat]

theorem decoders_preserve_boundaries_witness :
    ((eager_tag T0 s4).head? = some ("<s>", "START") ∧
      (eager_tag T0 s4).getLast? = some ("</s>", "END")) ∧
    ((viterbi_tag T0 s4).head? = some ("<s>", "START") ∧
      (viterbi_tag T0 s4).getLast? = some ("</s>", "END")) ∧
    ((forward_backward_tag T0 s4).head? = some ("<s>", "START") ∧
      (forward_backward_tag T0 s4).getLast? = some ("</s>", "END")) :=
  decoders_preserve_boundaries T0 s4 (by decide) (by decide)

/-- Reading the word of the token at index `i` only depends on the word
sequence of the sentence. -/
theorem fst_getD : ∀ (s : Sentence) (i : Nat),
    (s.getD i ("", "")).1 = (s.map Prod.fst).getD i "" := by
  intro s
  induction s with
  | nil => intro i; rfl
  | cons a l ih =>
    intro i
    cases i with
    | zero => rfl
    | succ j => simpa using ih j

/-- The loop of `eager_tag` reads only the words of the tokens it
consumes. -/
theorem eagerGo_congr (T : Tagger) : ∀ (l1 l2 : List Token) (prev : String),
    l1.map Prod.fst = l2.map Prod.fst → eagerGo T prev l1 = eagerGo T prev l2 := by
  intro l1
  induction l1 with
  | nil =>
    intro l2 prev h
    cases l2 with
    | nil => rfl
    | cons b l2 => simp at h
  | cons a l ih =>
    intro l2 prev h
    cases l2 with
    | nil => simp at h
    | cons b l2 =>
      simp only [List.map_cons, List.cons.injEq] at h
      obtain ⟨hab, hrest⟩ := h
      simp only [eagerGo, hab]
      rw [ih l2 _ hrest]

/-- `eager_tag` depends only on the word sequence and the two boundary
tokens of its input. -/
theorem eager_tag_congr (T : Tagger) {s1 s2 : Sentence}
    (hh : s1.headD ("", "") = s2.headD ("", ""))
    (hl : s1.getLastD ("", "") = s2.getLastD ("", ""))
    (hw : s1.map Prod.fst = s2.map Prod.fst) :
    eager_tag T s1 = eager_tag T s2 := by
  unfold eager_tag
  rw [hh, hl, eagerGo_congr T (s1.drop 1) (s2.drop 1) "START"
    (by rw [List.map_drop, List.map_drop, hw])]

/-- `viterbi_tag` depends only on the word sequence of its input. -/
theorem viterbi_tag_congr (T : Tagger) {s1 s2 : Sentence}
    (hw : s1.map Prod.fst = s2.map Prod.fst) :
    viterbi_tag T s1 = viterbi_tag T s2 := by
  have hlen : s1.length = s2.length := by
    rw [← List.length_map s1 Prod.fst, ← List.length_map s2 Prod.fst, hw]
  have h1 : (s1.getD 1 ("", "")).1 = (s2.getD 1 ("", "")).1 := by
    rw [fst_getD, fst_getD, hw]
  have h2 : (s1.drop 2).map Prod.fst = (s2.drop 2).map Prod.fst := by
    rw [List.map_drop, List.map_drop, hw]
  simp only [viterbi_tag]
  rw [h1, h2, hlen]
  congr 1
  congr 1
  exact List.map_congr_left (fun i _ => by rw [fst_getD s1 i, fst_getD s2 i, hw])

/-- `forward_backward_tag` depends only on the word sequence of its
input. -/
theorem forward_backward_tag_congr (T : Tagger) {s1 s2 : Sentence}
    (hw : s1.map Prod.fst = s2.map Prod.fst) :
    forward_backward_tag T s1 = forward_backward_tag T s2 := by
  have hlen : s1.length = s2.length := by
    rw [← List.length_map s1 Prod.fst, ← List.length_map s2 Prod.fst, hw]
  have h1 : (s1.getD 1 ("", "")).1 = (s2.getD 1 ("", "")).1 := by
    rw [fst_getD, fst_getD, hw]
  have h2 : ((s1.drop 2).dropLast).map Prod.fst = ((s2.drop 2).dropLast).map Prod.fst := by
    rw [List.map_dropLast, List.map_dropLast, List.map_drop, List.map_drop, hw]
  simp only [forward_backward_tag]
  rw [h1, h2, hlen]
  congr 1
  congr 1
  exact List.map_congr_left
    (fun i _ => by rw [fst_getD s1 (i + 1), fst_getD s2 (i + 1), hw])

/-- C9: on two well-formed sentences with the same words, every decoder
produces the same output — the gold tags of the input are never read
(only the boundary tokens, which the Sentence invariant fixes, and the
words). -/
theorem decoders_ignore_gold_tags (T : Tagger) (s1 s2 : Sentence)
    (hh1 : s1.head? = some ("<s>", "START")) (hl1 : s1.getLast? = some ("</s>", "END"))
    (hh2 : s2.head? = some ("<s>", "START")) (hl2 : s2.getLast? = some ("</s>", "END"))
    (hw : s1.map Prod.fst = s2.map Prod.fst) :
    eager_tag T s1 = eager_tag T s2 ∧
    viterbi_tag T s1 = viterbi_tag T s2 ∧
    forward_backward_tag T s1 = forward_backward_tag T s2 := by
  refine ⟨eager_tag_congr T ?_ ?_ hw, viterbi_tag_congr T hw,
    forward_backward_tag_congr T hw⟩
  · rw [List.headD_eq_head?, List.headD_eq_head?, hh1, hh2]
  · rw [List.getLastD_eq_getLast?, List.getLastD_eq_getLast?, hl1, hl2]

/-- Witness for `decoders_ignore_gold_tags`: `s4` and `s4b` share their
words and differ in the interior gold tags. -/
theorem decoders_ignore_gold_tags_witness :
    eager_tag T0 s4 = eager_tag T0 s4b ∧
    viterbi_tag T0 s4 = viterbi_tag T0 s4b ∧
    forward_backward_tag T0 s4 = forward_backward_tag T0 s4b :=
  decoders_ignore_gold_tags T0 s4 s4b (by decide) (by decide) (by decide) (by decide)
    (by decide)

/-- A fold that conditionally counts in its first component and counts
unconditionally in its second. -/
theorem foldl_count {α : Type} (P : α → Prop) [DecidablePred P] :
    ∀ (L : List α) (c t : ℚ),
      L.foldl (fun acc x => (if P x then acc.1 + 1 else acc.1, acc.2 + 1)) (c, t) =
        (c + ((L.countP (fun x => decide (P x)) : ℕ) : ℚ), t + (L.length : ℚ)) := by
  intro L
  induction L with
  | nil => intro c t; simp
  | cons a L ih =>
    intro c t
    by_cases h : P a
    · rw [List.foldl_cons, if_pos h, ih, List.countP_cons,
        if_pos (decide_eq_true h), List.length_cons, Prod.mk.injEq]
      refine ⟨by push_cast; ring, by push_cast; ring⟩
    · rw [List.foldl_cons, if_neg h, ih, List.countP_cons,
        if_neg (by simpa using h), List.length_cons, Prod.mk.injEq]
      refine ⟨by push_cast; ring, by push_cast; ring⟩

/-- Indexing a list over the range of its own length is a `map`. -/
theorem range_map_getD {α β : Type} (d : α) (f : α → β) :
    ∀ (l : List α), (List.range l.length).map (fun i => f (l.getD i d)) = l.map f := by
  intro l
  induction l with
  | nil => rfl
  | cons a l ih =>
    have h2 : (List.range l.length).map ((fun i => f ((a :: l).getD i d)) ∘ Nat.succ)
        = (List.range l.length).map (fun i => f (l.getD i d)) :=
      List.map_congr_left (fun i _ => rfl)
    rw [List.length_cons, List.range_succ_eq_map, List.map_cons, List.map_map, h2, ih,
      List.map_cons]
    rfl

/-- The double counting loop of `calc_accuracy`, characterized: the first
component accumulates the per-sentence match counts, the second the
per-sentence lengths. -/
theorem calc_accuracy_fold (test preds : List Sentence) :
    ∀ (L : List Nat) (c t : ℚ),
      L.foldl (fun acc i =>
        (List.range (test.getD i []).length).foldl
          (fun acc2 j =>
            (if ((preds.getD i []).getD j ("", "")).2 = ((test.getD i []).getD j ("", "")).2
              then acc2.1 + 1 else acc2.1, acc2.2 + 1)) acc) (c, t) =
      (c + (L.map (fun i => ((matchCount (preds.getD i []) (test.getD i []) : ℕ) : ℚ))).sum,
       t + (L.map (fun i => (((test.getD i []).length : ℕ) : ℚ))).sum) := by
  intro L
  induction L with
  | nil => intro c t; simp
  | cons a L ih =>
    intro c t
    rw [List.foldl_cons,
      foldl_count (fun j =>
        ((preds.getD a []).getD j ("", "")).2 = ((test.getD a []).getD j ("", "")).2),
      ih, List.map_cons, List.sum_cons, List.map_cons, List.sum_cons, Prod.mk.injEq]
    unfold matchCount
    rw [List.length_range]
    exact ⟨by ring, by ring⟩

/-- `calc_accuracy`, characterized in closed form: the result is the
total match count divided by the total token count, with the
division-by-zero error when the latter is zero. -/
theorem calc_accuracy_char (test preds : List Sentence) :
    calc_accuracy test preds =
      if ((test.map (fun s => ((s.length : ℕ) : ℚ))).sum = 0)
        then Except.error "float division by zero"
        else Except.ok
          ((((List.range test.length).map
              (fun i => ((matchCount (preds.getD i []) (test.getD i []) : ℕ) : ℚ))).sum) /
            (test.map (fun s => ((s.length : ℕ) : ℚ))).sum) := by
  have hT : (List.range test.length).map (fun i => (((test.getD i []).length : ℕ) : ℚ))
      = test.map (fun s => ((s.length : ℕ) : ℚ)) :=
    range_map_getD [] (fun s => ((s.length : ℕ) : ℚ)) test
  simp only [calc_accuracy]
  rw [calc_accuracy_fold, hT]
  simp only [zero_add]

/-- C8: on parallel position-aligned inputs with at least one token,
`calc_accuracy` returns a value in `[0, 1]`; it returns exactly `1` when
the predicted tag equals the gold tag at every position and exactly `0`
when they differ at every position. -/
theorem calc_accuracy_bounds (test preds : List Sentence)
    (_hlen : preds.length = test.length)
    (_halign : ∀ i < test.length, (preds.getD i []).length = (test.getD i []).length)
    (hpos : 0 < (test.map List.length).sum) :
    (∃ a, calc_accuracy test preds = Except.ok a ∧ 0 ≤ a ∧ a ≤ 1) ∧
    ((∀ i < test.length, ∀ j < (test.getD i []).length,
        ((preds.getD i []).getD j ("", "")).2 = ((test.getD i []).getD j ("", "")).2) →
      calc_accuracy test preds = Except.ok 1) ∧
    ((∀ i < test.length, ∀ j < (test.getD i []).length,
        ((preds.getD i []).getD j ("", "")).2 ≠ ((test.getD i []).getD j ("", "")).2) →
      calc_accuracy test preds = Except.ok 0) := by
  have hchar := calc_accuracy_char test preds
  have hrange := range_map_getD ([] : Sentence) (fun s => ((s.length : ℕ) : ℚ)) test
  have hcast : (((test.map List.length).sum : ℕ) : ℚ)
      = (test.map (fun s => ((s.length : ℕ) : ℚ))).sum := by
    rw [Nat.cast_list_sum, List.map_map]
    rfl
  have hTpos : 0 < (test.map (fun s => ((s.length : ℕ) : ℚ))).sum := by
    rw [← hcast]
    exact_mod_cast hpos
  have hTne : (test.map (fun s => ((s.length : ℕ) : ℚ))).sum ≠ 0 := ne_of_gt hTpos
  have hok : calc_accuracy test preds = Except.ok
      ((((List.range test.length).map
        (fun i => ((matchCount (preds.getD i []) (test.getD i []) : ℕ) : ℚ))).sum) /
        (test.map (fun s => ((s.length : ℕ) : ℚ))).sum) := by
    rw [hchar, if_neg hTne]
  have hC0 : 0 ≤ ((List.range test.length).map
      (fun i => ((matchCount (preds.getD i []) (test.getD i []) : ℕ) : ℚ))).sum := by
    refine List.sum_nonneg ?_
    intro x hx
    rw [List.mem_map] at hx
    obtain ⟨i, _, rfl⟩ := hx
    exact Nat.cast_nonneg _
  have hmc_le : ∀ i, matchCount (preds.getD i []) (test.getD i [])
      ≤ (test.getD i []).length := by
    intro i
    unfold matchCount
    exact le_trans (List.countP_le_length _) (le_of_eq (List.length_range _))
  have hCT : ((List.range test.length).map
      (fun i => ((matchCount (preds.getD i []) (test.getD i []) : ℕ) : ℚ))).sum
      ≤ (test.map (fun s => ((s.length : ℕ) : ℚ))).sum := by
    rw [← hrange]
    refine List.sum_le_sum ?_
    intro i _
    exact_mod_cast hmc_le i
  refine ⟨⟨_, hok, div_nonneg hC0 (le_of_lt hTpos), (div_le_one hTpos).2 hCT⟩, ?_, ?_⟩
  · intro hall
    have hCeq : ((List.range test.length).map
        (fun i => ((matchCount (preds.getD i []) (test.getD i []) : ℕ) : ℚ))).sum
        = (test.map (fun s => ((s.length : ℕ) : ℚ))).sum := by
      rw [← hrange]
      refine congrArg List.sum (List.map_congr_left ?_)
      intro i hi
      rw [List.mem_range] at hi
      have hmc : matchCount (preds.getD i []) (test.getD i [])
          = (test.getD i []).length := by
        unfold matchCount
        nth_rewrite 2 [← List.length_range (test.getD i []).length]
        rw [List.countP_eq_length]
        intro j hj
        exact decide_eq_true (hall i hi j (List.mem_range.1 hj))
      exact_mod_cast congrArg Nat.cast hmc
    rw [hok, hCeq, div_self hTne]
  · intro hall
    have hCeq : ((List.range test.length).map
        (fun i => ((matchCount (preds.getD i []) (test.getD i []) : ℕ) : ℚ))).sum
        = (0 : ℚ) := by
      have hz : ∀ i ∈ List.range test.length,
          ((matchCount (preds.getD i []) (test.getD i []) : ℕ) : ℚ) = (fun _ => (0 : ℚ)) i := by
        intro i hi
        rw [List.mem_range] at hi
        have h0 : matchCount (preds.getD i []) (test.getD i []) = 0 := by
          unfold matchCount
          rw [List.countP_eq_zero]
          intro j hj
          simp only [decide_eq_true_eq]
          exact hall i hi j (List.mem_range.1 hj)
        rw [h0]
        rfl
      rw [List.map_congr_left hz]
      simp
    rw [hok, hCeq, zero_div]

/-- Witness for `calc_accuracy_bounds` with the test corpus `[s4]` and
the perfect prediction `[s4]`. -/
theorem calc_accuracy_bounds_witness :
    (∃ a, calc_accuracy [s4] [s4] = Except.ok a ∧ 0 ≤ a ∧ a ≤ 1) ∧
    ((∀ i < ([s4] : List Sentence).length, ∀ j < (([s4] : List Sentence).getD i []).length,
        ((([s4] : List Sentence).getD i []).getD j ("", "")).2
          = ((([s4] : List Sentence).getD i []).getD j ("", "")).2) →
      calc_accuracy [s4] [s4] = Except.ok 1) ∧
    ((∀ i < ([s4] : List Sentence).length, ∀ j < (([s4] : List Sentence).getD i []).length,
        ((([s4] : List Sentence).getD i []).getD j ("", "")).2
          ≠ ((([s4] : List Sentence).getD i []).getD j ("", "")).2) →
      calc_accuracy [s4] [s4] = Except.ok 0) :=
  calc_accuracy_bounds [s4] [s4] (by decide) (by decide) (by decide)

/-- C3 counterexample: on the two-tag model `T2`, the backtracking of
`viterbi_tag` (per-column argmax, no backpointers) returns the tag
sequence `[A, A]`, although the candidate `[B, A]` of the same length
from the tag set has strictly larger joint log-probability. -/
theorem viterbi_not_joint_optimal_cex :
    ((s2.drop 1).dropLast).map Prod.fst = ["u", "v"] ∧
    interiorTags (viterbi_tag T2 s2) = ["A", "A"] ∧
    ["B", "A"] ∈ tagSeqs T2.tags 2 ∧
    jointScore T2 ["u", "v"] ["A", "A"] < jointScore T2 ["u", "v"] ["B", "A"] := by
  decide

/-- The seed of a `foldl max` is a lower bound of the result. -/
theorem le_foldl_max : ∀ (xs : List ℤ) (a : ℤ), a ≤ xs.foldl max a := by
  intro xs
  induction xs with
  | nil => intro a; exact le_refl a
  | cons x xs ih => intro a; exact le_trans (le_max_left a x) (ih (max a x))

/-- Every member of the list is a lower bound of its `foldl max`. -/
theorem foldl_max_le_mem : ∀ (xs : List ℤ) (a x : ℤ), x ∈ xs → x ≤ xs.foldl max a := by
  intro xs
  induction xs with
  | nil => intro a x hx; cases hx
  | cons y ys ih =>
    intro a x hx
    rcases List.mem_cons.1 hx with rfl | hx
    · exact le_trans (le_max_right a x) (le_foldl_max ys (max a x))
    · exact ih (max a y) x hx

/-- A `foldl max` is its seed or one of the list members. -/
theorem foldl_max_cases : ∀ (xs : List ℤ) (a : ℤ),
    xs.foldl max a = a ∨ xs.foldl max a ∈ xs := by
  intro xs
  induction xs with
  | nil => intro a; exact Or.inl rfl
  | cons y ys ih =>
    intro a
    rw [List.foldl_cons]
    rcases ih (max a y) with h | h
    · rcases le_total a y with hay | hya
      · rw [h, max_eq_right hay]
        exact Or.inr (List.mem_cons_self _ _)
      · rw [h, max_eq_left hya]
        exact Or.inl rfl
    · exact Or.inr (List.mem_cons_of_mem _ h)

/-- A `foldl max` is below any common upper bound of seed and members. -/
theorem foldl_max_le : ∀ (xs : List ℤ) (a b : ℤ),
    a ≤ b → (∀ x ∈ xs, x ≤ b) → xs.foldl max a ≤ b := by
  intro xs
  induction xs with
  | nil => intro a b hab _; exact hab
  | cons y ys ih =>
    intro a b hab hall
    rw [List.foldl_cons]
    exact ih _ b (max_le hab (hall y (List.mem_cons_self _ _)))
      (fun x hx => hall x (List.mem_cons_of_mem _ hx))

/-- Every member bounds `maxOf` from below. -/
theorem le_maxOf_of_mem {l : List ℤ} {x : ℤ} (hx : x ∈ l) : x ≤ maxOf l := by
  cases l with
  | nil => cases hx
  | cons a l =>
    rcases List.mem_cons.1 hx with rfl | h
    · exact le_foldl_max l x
    · exact foldl_max_le_mem l a x h

/-- `maxOf` of a nonempty list is one of its members. -/
theorem maxOf_mem {l : List ℤ} (h : l ≠ []) : maxOf l ∈ l := by
  cases l with
  | nil => exact absurd rfl h
  | cons a l =>
    rcases foldl_max_cases l a with h1 | h1
    · rw [maxOf, h1]
      exact List.mem_cons_self _ _
    · rw [maxOf]
      exact List.mem_cons_of_mem _ h1

/-- `maxOf` of a nonempty list is below any upper bound of the members. -/
theorem maxOf_le {l : List ℤ} {b : ℤ} (h : l ≠ []) (hall : ∀ x ∈ l, x ≤ b) :
    maxOf l ≤ b := by
  cases l with
  | nil => exact absurd rfl h
  | cons a l =>
    exact foldl_max_le l a b (hall a (List.mem_cons_self _ _))
      (fun x hx => hall x (List.mem_cons_of_mem _ hx))

/-- The seed's value is below the value of a key-maximizing fold. -/
theorem le_argmax_foldl {α : Type} (f : α → ℤ) : ∀ (xs : List α) (b : α),
    f b ≤ f (xs.foldl (fun b y => if f b < f y then y else b) b) := by
  intro xs
  induction xs with
  | nil => intro b; exact le_refl _
  | cons y ys ih =>
    intro b
    rw [List.foldl_cons]
    by_cases h : f b < f y
    · rw [if_pos h]
      exact le_trans (le_of_lt h) (ih y)
    · rw [if_neg h]
      exact ih b

/-- A key-maximizing fold returns its seed or a member. -/
theorem argmax_foldl_mem {α : Type} (f : α → ℤ) : ∀ (xs : List α) (b : α),
    xs.foldl (fun b y => if f b < f y then y else b) b = b ∨
    xs.foldl (fun b y => if f b < f y then y else b) b ∈ xs := by
  intro xs
  induction xs with
  | nil => intro b; exact Or.inl rfl
  | cons y ys ih =>
    intro b
    rw [List.foldl_cons]
    by_cases h : f b < f y
    · rw [if_pos h]
      rcases ih y with h1 | h1
      · rw [h1]
        exact Or.inr (List.mem_cons_self _ _)
      · exact Or.inr (List.mem_cons_of_mem _ h1)
    · rw [if_neg h]
      rcases ih b with h1 | h1
      · exact Or.inl h1
      · exact Or.inr (List.mem_cons_of_mem _ h1)

/-- Every member's value is below the value of a key-maximizing fold. -/
theorem argmax_foldl_ge_mem {α : Type} (f : α → ℤ) : ∀ (xs : List α) (b x : α),
    x ∈ xs → f x ≤ f (xs.foldl (fun b y => if f b < f y then y else b) b) := by
  intro xs
  induction xs with
  | nil => intro b x hx; cases hx
  | cons y ys ih =>
    intro b x hx
    rw [List.foldl_cons]
    rcases List.mem_cons.1 hx with rfl | hx
    · by_cases h : f b < f x
      · rw [if_pos h]
        exact le_argmax_foldl f ys x
      · rw [if_neg h]
        exact le_trans (le_of_not_lt h) (le_argmax_foldl f ys b)
    · by_cases h : f b < f y
      · rw [if_pos h]
        exact ih y x hx
      · rw [if_neg h]
        exact ih b x hx

/-- `argmaxFirst` on a nonempty list returns a member whose value bounds
every member's value (Python `max(l, key = f)`). -/
theorem argmaxFirst_spec {α : Type} (f : α → ℤ) {l : List α} (h : l ≠ []) :
    ∃ b, argmaxFirst f l = some b ∧ b ∈ l ∧ ∀ x ∈ l, f x ≤ f b := by
  cases l with
  | nil => exact absurd rfl h
  | cons a l =>
    refine ⟨l.foldl (fun b y => if f b < f y then y else b) a, rfl, ?_, ?_⟩
    · rcases argmax_foldl_mem f l a with h1 | h1
      · rw [h1]
        exact List.mem_cons_self _ _
      · exact List.mem_cons_of_mem _ h1
    · intro x hx
      rcases List.mem_cons.1 hx with rfl | hx
      · exact le_argmax_foldl f l x
      · exact argmax_foldl_ge_mem f l a x hx

/-- Looking up a key present in `l` in the association list
`l.map (fun x => (x, f x))` yields `f` of the key. -/
theorem lookupD_map_self (f : String → ℤ) : ∀ (l : List String) (t : String), t ∈ l →
    lookupD (l.map (fun x => (x, f x))) t = f t := by
  intro l
  induction l with
  | nil => intro t ht; cases ht
  | cons a l ih =>
    intro t ht
    by_cases hat : a = t
    · subst hat
      simp [lookupD, List.lookup]
    · have hne : (t == a) = false := beq_eq_false_iff_ne.2 (Ne.symm hat)
      have ht' : t ∈ l := by
        rcases List.mem_cons.1 ht with rfl | h
        · exact absurd rfl hat
        · exact h
      simp only [lookupD, List.map_cons, List.lookup, hne]
      exact ih t ht'

/-- Members of `tagSeqs tags n` have length `n`. -/
theorem tagSeqs_length {tags : List String} : ∀ (n : Nat) (qs : List String),
    qs ∈ tagSeqs tags n → qs.length = n := by
  intro n
  induction n with
  | zero =>
    intro qs h
    rw [tagSeqs, List.mem_singleton] at h
    rw [h]
    rfl
  | succ n ih =>
    intro qs h
    rw [tagSeqs, List.mem_flatMap] at h
    obtain ⟨qs0, hqs0, h2⟩ := h
    rw [List.mem_map] at h2
    obtain ⟨t, _, rfl⟩ := h2
    rw [List.length_append, ih qs0 hqs0]
    rfl

/-- Members of `tagSeqs tags n` draw every tag from `tags`. -/
theorem tagSeqs_mem_tags {tags : List String} : ∀ (n : Nat) (qs : List String),
    qs ∈ tagSeqs tags n → ∀ q ∈ qs, q ∈ tags := by
  intro n
  induction n with
  | zero =>
    intro qs h q hq
    rw [tagSeqs, List.mem_singleton] at h
    subst h
    cases hq
  | succ n ih =>
    intro qs h q hq
    rw [tagSeqs, List.mem_flatMap] at h
    obtain ⟨qs0, hqs0, h2⟩ := h
    rw [List.mem_map] at h2
    obtain ⟨t, ht, rfl⟩ := h2
    rcases List.mem_append.1 hq with h3 | h3
    · exact ih qs0 hqs0 q h3
    · rw [List.mem_singleton] at h3
      rw [h3]
      exact ht

/-- Every length-`n` sequence over `tags` is a member of
`tagSeqs tags n`. -/
theorem tagSeqs_complete {tags : List String} : ∀ (n : Nat) (qs : List String),
    qs.length = n → (∀ q ∈ qs, q ∈ tags) → qs ∈ tagSeqs tags n := by
  intro n
  induction n with
  | zero =>
    intro qs h1 _
    rw [List.length_eq_zero] at h1
    rw [h1, tagSeqs]
    exact List.mem_singleton_self _
  | succ n ih =>
    intro qs h1 h2
    have hne : qs ≠ [] := by
      intro h
      rw [h] at h1
      simp at h1
    obtain ⟨qs0, t, rfl⟩ : ∃ qs0 t, qs = qs0 ++ [t] :=
      ⟨qs.dropLast, qs.getLast hne, (List.dropLast_append_getLast hne).symm⟩
    rw [tagSeqs, List.mem_flatMap]
    refine ⟨qs0, ih qs0 ?_ ?_, List.mem_map_of_mem _ (h2 t ?_)⟩
    · rw [List.length_append] at h1
      simpa using h1
    · exact fun q hq => h2 q (List.mem_append_left _ hq)
    · exact List.mem_append_right _ (List.mem_singleton_self _)

/-- Membership in `tagSeqs tags (n+1)`, unfolded. -/
theorem tagSeqs_succ_mem {tags : List String} {n : Nat} {r : List String} :
    r ∈ tagSeqs tags (n + 1) ↔
      ∃ qs ∈ tagSeqs tags n, ∃ t ∈ tags, r = qs ++ [t] := by
  rw [tagSeqs, List.mem_flatMap]
  constructor
  · rintro ⟨qs, hqs, hr⟩
    rw [List.mem_map] at hr
    obtain ⟨t, ht, rfl⟩ := hr
    exact ⟨qs, hqs, t, ht, rfl⟩
  · rintro ⟨qs, hqs, t, ht, rfl⟩
    exact ⟨qs, hqs, List.mem_map_of_mem _ ht⟩

/-- `tagSeqs` over a nonempty tag list is nonempty. -/
theorem exists_mem_tagSeqs {tags : List String} (h : tags ≠ []) :
    ∀ n, ∃ qs, qs ∈ tagSeqs tags n := by
  intro n
  induction n with
  | zero => exact ⟨[], List.mem_singleton_self _⟩
  | succ n ih =>
    obtain ⟨qs, hqs⟩ := ih
    obtain ⟨t, ht⟩ := List.exists_mem_of_ne_nil tags h
    exact ⟨qs ++ [t], tagSeqs_succ_mem.2 ⟨qs, hqs, t, ht, rfl⟩⟩

/-- `tagSeqs` over a nonempty tag list is a nonempty list. -/
theorem tagSeqs_ne_nil {tags : List String} (h : tags ≠ []) (n : Nat) :
    tagSeqs tags n ≠ [] := by
  obtain ⟨qs, hqs⟩ := exists_mem_tagSeqs h n
  exact List.ne_nil_of_mem hqs

/-- Appending one `(word, tag)` pair to a path adds one transition from
the path's last tag and one emission. -/
theorem scoreFrom_concat (T : Tagger) : ∀ (l : List (String × String)) (prev w q : String),
    scoreFrom T prev (l ++ [(w, q)]) =
      scoreFrom T prev l +
        (T.transitions ((l.map Prod.snd).getLastD prev, q) + T.emissions q w) := by
  intro l
  induction l with
  | nil =>
    intro prev w q
    simp [scoreFrom]
  | cons a l ih =>
    intro prev w q
    obtain ⟨w0, q0⟩ := a
    simp only [List.cons_append, scoreFrom, List.append_eq, ih, List.map_cons,
      List.getLastD_cons]
    ring

/-- The semantic value of the initial Viterbi column: best (= only)
length-1 prefix ending in `t`. -/
theorem bestEnd_single (T : Tagger) (w t : String) :
    bestEnd T [w] t = T.transitions ("START", t) + T.emissions t w := by
  unfold bestEnd
  simp [tagSeqs, maxOf, scoreFrom]

/-- One Viterbi recurrence step preserves the semantic reading of the
columns: if column `c` holds the best prefix scores for the words `ws`,
then `nextColV` on word `w` holds the best prefix scores for
`ws ++ [w]`. -/
theorem bestEnd_step (T : Tagger) (hT : T.tags ≠ []) (ws : List String) (hws : ws ≠ [])
    (c : Col) (hc : ∀ p ∈ T.tags, lookupD c p = bestEnd T ws p) (w : String) :
    ∀ t ∈ T.tags, lookupD (nextColV T c w) t = bestEnd T (ws ++ [w]) t := by
  intro t ht
  have hpos : 0 < ws.length := List.length_pos.2 hws
  have hsucc : (ws.length - 1) + 1 = ws.length := Nat.succ_pred_eq_of_pos hpos
  have hlen1 : (ws ++ [w]).length - 1 = ws.length := by
    rw [List.length_append, List.length_singleton]
    omega
  rw [nextColV, lookupD_map_self _ T.tags t ht]
  unfold bestEnd
  rw [hlen1]
  apply le_antisymm
  · refine maxOf_le (fun hmap => hT (List.map_eq_nil_iff.1 hmap)) ?_
    intro x hx
    rw [List.mem_map] at hx
    obtain ⟨p, hp, rfl⟩ := hx
    rw [hc p hp]
    have hne2 : (tagSeqs T.tags (ws.length - 1)).map
        (fun qs => scoreFrom T "START" (ws.zip (qs ++ [p]))) ≠ [] :=
      fun hmap => tagSeqs_ne_nil hT _ (List.map_eq_nil_iff.1 hmap)
    have hmem := maxOf_mem hne2
    rw [List.mem_map] at hmem
    obtain ⟨qs0, hqs0, heq⟩ := hmem
    have hq0len : qs0.length = ws.length - 1 := tagSeqs_length _ _ hqs0
    have hplen : ws.length = (qs0 ++ [p]).length := by
      rw [List.length_append, hq0len, List.length_singleton]
      omega
    have helem : scoreFrom T "START" ((ws ++ [w]).zip ((qs0 ++ [p]) ++ [t]))
        = scoreFrom T "START" (ws.zip (qs0 ++ [p]))
          + (T.transitions (p, t) + T.emissions t w) := by
      rw [List.zip_append hplen, List.zip_cons_cons, List.zip_nil_left, scoreFrom_concat,
        List.map_snd_zip ws (qs0 ++ [p]) (le_of_eq hplen.symm), List.getLastD_concat]
    have hxval : bestEnd T ws p + T.transitions (p, t) + T.emissions t w
        = scoreFrom T "START" ((ws ++ [w]).zip ((qs0 ++ [p]) ++ [t])) := by
      rw [helem]
      unfold bestEnd
      rw [← heq]
      ring
    rw [hxval]
    apply le_maxOf_of_mem
    rw [List.mem_map]
    refine ⟨qs0 ++ [p], ?_, rfl⟩
    rw [← hsucc]
    exact tagSeqs_succ_mem.2 ⟨qs0, hqs0, p, hp, rfl⟩
  · refine maxOf_le (fun hmap => tagSeqs_ne_nil hT _ (List.map_eq_nil_iff.1 hmap)) ?_
    intro x hx
    rw [List.mem_map] at hx
    obtain ⟨qs, hqs, rfl⟩ := hx
    rw [← hsucc] at hqs
    obtain ⟨qs0, hqs0, p, hp, rfl⟩ := tagSeqs_succ_mem.1 hqs
    have hq0len : qs0.length = ws.length - 1 := tagSeqs_length _ _ hqs0
    have hplen : ws.length = (qs0 ++ [p]).length := by
      rw [List.length_append, hq0len, List.length_singleton]
      omega
    have helem : scoreFrom T "START" ((ws ++ [w]).zip ((qs0 ++ [p]) ++ [t]))
        = scoreFrom T "START" (ws.zip (qs0 ++ [p]))
          + (T.transitions (p, t) + T.emissions t w) := by
      rw [List.zip_append hplen, List.zip_cons_cons, List.zip_nil_left, scoreFrom_concat,
        List.map_snd_zip ws (qs0 ++ [p]) (le_of_eq hplen.symm), List.getLastD_concat]
    rw [helem]
    have hle1 : scoreFrom T "START" (ws.zip (qs0 ++ [p])) ≤ bestEnd T ws p := by
      unfold bestEnd
      exact le_maxOf_of_mem (List.mem_map_of_mem _ hqs0)
    have hle2 : scoreFrom T "START" (ws.zip (qs0 ++ [p]))
          + (T.transitions (p, t) + T.emissions t w)
        ≤ lookupD c p + T.transitions (p, t) + T.emissions t w := by
      rw [hc p hp]
      linarith [hle1]
    exact le_trans hle2 (le_maxOf_of_mem (List.mem_map_of_mem _ hp))

/-- Folding `nextColV` over further words extends the semantic reading
of the columns. -/
theorem foldl_nextColV_char (T : Tagger) (hT : T.tags ≠ []) :
    ∀ (ws2 : List String) (c : Col) (ws : List String), ws ≠ [] →
      (∀ p ∈ T.tags, lookupD c p = bestEnd T ws p) →
      ∀ t ∈ T.tags, lookupD (ws2.foldl (nextColV T) c) t = bestEnd T (ws ++ ws2) t := by
  intro ws2
  induction ws2 with
  | nil =>
    intro c ws hws hc t ht
    rw [List.foldl_nil, List.append_nil]
    exact hc t ht
  | cons w ws2 ih =>
    intro c ws hws hc t ht
    rw [List.foldl_cons]
    have hstep := bestEnd_step T hT ws hws c hc w
    have hws' : ws ++ [w] ≠ [] := by simp
    have := ih (nextColV T c w) (ws ++ [w]) hws' hstep t ht
    rw [this, List.append_assoc, List.singleton_append]

/-- The initial Viterbi column holds the best length-1 prefix scores. -/
theorem initialColV_char (T : Tagger) (w1 : String) :
    ∀ t ∈ T.tags, lookupD (initialColV T w1) t = bestEnd T [w1] t := by
  intro t ht
  rw [initialColV, lookupD_map_self _ T.tags t ht, bestEnd_single]

/-- Every column reachable by the Viterbi recurrence from the initial
column is an association list over `T.tags` in order. -/
theorem foldl_nextColV_shape (T : Tagger) :
    ∀ (ws : List String) (f : String → ℤ),
      ∃ g : String → ℤ, ws.foldl (nextColV T) (T.tags.map (fun t => (t, f t)))
        = T.tags.map (fun t => (t, g t)) := by
  intro ws
  induction ws with
  | nil => intro f; exact ⟨f, rfl⟩
  | cons w ws ih =>
    intro f
    rw [List.foldl_cons, nextColV]
    exact ih _

/-- The entries of a `scanCols` table are the partial folds of the step
function over the word prefixes. -/
theorem scanCols_getD (step : Col → String → Col) :
    ∀ (ws : List String) (c : Col) (i : Nat), i ≤ ws.length →
      (scanCols step c ws).getD i [] = (ws.take i).foldl step c := by
  intro ws
  induction ws with
  | nil =>
    intro c i hi
    have : i = 0 := Nat.le_zero.1 hi
    subst this
    rfl
  | cons w ws ih =>
    intro c i hi
    cases i with
    | zero => rfl
    | succ j =>
      rw [scanCols, List.getD_cons_succ, ih (step c w) j (Nat.succ_le_succ_iff.1 hi),
        List.take_succ_cons, List.foldl_cons]

/-- A `scanCols` table has one column per word plus the seed column. -/
theorem scanCols_length (step : Col → String → Col) :
    ∀ (ws : List String) (c : Col), (scanCols step c ws).length = ws.length + 1 := by
  intro ws
  induction ws with
  | nil => intro c; rfl
  | cons w ws ih =>
    intro c
    rw [scanCols, List.length_cons, ih (step c w), List.length_cons]

/-- Indexing a mapped `range'` list. -/
theorem getD_map_range' {β : Type} (g : Nat → β) (d : β) :
    ∀ (n a j : Nat), j < n → (List.map g (List.range' a n)).getD j d = g (a + j) := by
  intro n
  induction n with
  | zero => intro a j hj; cases hj
  | succ n ih =>
    intro a j hj
    rw [List.range'_succ, List.map_cons]
    cases j with
    | zero => simp
    | succ k =>
      rw [List.getD_cons_succ, ih (a + 1) k (by omega)]
      congr 1
      omega

/-- Indexing a mapped `range'` block inside an append. -/
theorem getD_append_map_range' {β : Type} (g : Nat → β) (d : β) (l2 : List β)
    (n a j : Nat) (hj : j < n) :
    ((List.map g (List.range' a n)) ++ l2).getD j d = g (a + j) := by
  rw [List.getD_append _ _ _ _ (by rw [List.length_map, List.length_range']; exact hj),
    getD_map_range' g d n a j hj]

/-- Indexing a `scanCols` block inside an append. -/
theorem getD_append_scanCols (step : Col → String → Col) (c : Col) (ws2 : List String)
    (l2 : List Col) (j : Nat) (hj : j ≤ ws2.length) :
    ((scanCols step c ws2) ++ l2).getD j [] = (ws2.take j).foldl step c := by
  rw [List.getD_append _ _ _ _ (by rw [scanCols_length]; omega),
    scanCols_getD step ws2 c j hj]

/-- The interior token of `viterbi_tag`'s output at position `j + 1`: the
word at that position, tagged with the first maximal entry of the DP
column obtained by folding the recurrence over the first `j` words after
the initial column. -/
theorem viterbi_tag_getD (T : Tagger) (s : Sentence) (j : Nat) (hj : j < s.length - 2) :
    (viterbi_tag T s).getD (j + 1) ("", "") =
      ((s.getD (j + 1) ("", "")).1,
        ((argmaxFirst Prod.snd
          ((((s.drop 2).map Prod.fst).take j).foldl (nextColV T)
            (initialColV T (s.getD 1 ("", "")).1))).getD ("", 0)).1) := by
  simp only [viterbi_tag]
  rw [List.cons_append, List.getD_cons_succ, getD_append_map_range' _ _ _ _ _ _ hj]
  have h1j : 1 + j - 1 = j := by omega
  have h1j' : 1 + j = j + 1 := by omega
  rw [h1j, h1j', getD_append_scanCols _ _ _ _ _ (by rw [List.length_map, List.length_drop]; omega)]

/-- C3 (amended): the tag predicted by `viterbi_tag` at interior position
`i` is the last tag of a maximal-scoring tag prefix of length `i`: some
candidate sequence ending in that tag attains the maximum joint prefix
log-probability (transitions from START plus emissions of the first `i`
interior words) over all candidate sequences of length `i` from the tag
set.  (The whole output sequence need not maximize the joint sequence
log-probability; see the counterexample.) -/
theorem viterbi_prefix_optimal (T : Tagger) (s : Sentence) (hT : T.tags ≠ [])
    (i : Nat) (hi1 : 1 ≤ i) (hi2 : i ≤ s.length - 2) :
    ∃ best ∈ tagSeqs T.tags i,
      best.getLast? = some ((viterbi_tag T s).getD i ("", "")).2 ∧
      ∀ qs ∈ tagSeqs T.tags i,
        scoreFrom T "START" ((((s.map Prod.fst).drop 1).take i).zip qs) ≤
        scoreFrom T "START" ((((s.map Prod.fst).drop 1).take i).zip best) := by
  obtain ⟨j, rfl⟩ : ∃ j, i = j + 1 := ⟨i - 1, by omega⟩
  have hj : j < s.length - 2 := by omega
  set wsi := ((s.map Prod.fst).drop 1).take (j + 1) with hwsi_def
  have hwsi_len : wsi.length = j + 1 := by
    rw [hwsi_def, List.length_take, List.length_drop, List.length_map, inf_eq_min]
    omega
  have hbase := initialColV_char T (s.getD 1 ("", "")).1
  have hchar := foldl_nextColV_char T hT (((s.drop 2).map Prod.fst).take j)
    (initialColV T (s.getD 1 ("", "")).1) [(s.getD 1 ("", "")).1] (by simp) hbase
  have hwords : [(s.getD 1 ("", "")).1] ++ (((s.drop 2).map Prod.fst).take j) = wsi := by
    have h1 : 1 < (s.map Prod.fst).length := by
      rw [List.length_map]
      omega
    rw [List.singleton_append, hwsi_def, List.drop_eq_getElem_cons h1,
      List.take_succ_cons]
    congr 1
    · rw [fst_getD, List.getD_eq_getElem?_getD, List.getElem?_eq_getElem h1]
      rfl
    · rw [List.map_drop]
  have hchar' : ∀ t ∈ T.tags,
      lookupD ((((s.drop 2).map Prod.fst).take j).foldl (nextColV T)
        (initialColV T (s.getD 1 ("", "")).1)) t = bestEnd T wsi t := by
    intro t ht
    rw [hchar t ht, hwords]
  obtain ⟨g, hg⟩ : ∃ g : String → ℤ,
      (((s.drop 2).map Prod.fst).take j).foldl (nextColV T)
        (initialColV T (s.getD 1 ("", "")).1) = T.tags.map (fun t => (t, g t)) := by
    rw [initialColV]
    exact foldl_nextColV_shape T _ _
  have hmapne : T.tags.map (fun t => (t, g t)) ≠ [] :=
    fun h => hT (List.map_eq_nil_iff.1 h)
  obtain ⟨b, hb_eq, hb_mem, hb_max⟩ := argmaxFirst_spec Prod.snd hmapne
  rw [List.mem_map] at hb_mem
  obtain ⟨tstar, htstar, hbpair⟩ := hb_mem
  have hpred : ((viterbi_tag T s).getD (j + 1) ("", "")).2 = tstar := by
    rw [viterbi_tag_getD T s j hj, hg, hb_eq, Option.getD_some, ← hbpair]
  have hval : ∀ t ∈ T.tags, g t = bestEnd T wsi t := by
    intro t ht
    rw [← hchar' t ht, hg, lookupD_map_self g T.tags t ht]
  have hmax : ∀ t ∈ T.tags, bestEnd T wsi t ≤ bestEnd T wsi tstar := by
    intro t ht
    have h1 := hb_max (t, g t) (List.mem_map_of_mem _ ht)
    rw [← hbpair] at h1
    rw [← hval t ht, ← hval tstar htstar]
    exact h1
  have hlen1 : wsi.length - 1 = j := by
    rw [hwsi_len]
    omega
  have hne3 : (tagSeqs T.tags (wsi.length - 1)).map
      (fun qs => scoreFrom T "START" (wsi.zip (qs ++ [tstar]))) ≠ [] :=
    fun h => tagSeqs_ne_nil hT _ (List.map_eq_nil_iff.1 h)
  have hach := maxOf_mem hne3
  rw [List.mem_map] at hach
  obtain ⟨qs0, hqs0, heq⟩ := hach
  rw [hlen1] at hqs0
  refine ⟨qs0 ++ [tstar], tagSeqs_succ_mem.2 ⟨qs0, hqs0, tstar, htstar, rfl⟩, ?_, ?_⟩
  · rw [List.getLast?_concat, hpred]
  · intro qs hqs
    obtain ⟨qs1, hqs1, p, hp, rfl⟩ := tagSeqs_succ_mem.1 hqs
    have hle1 : scoreFrom T "START" (wsi.zip (qs1 ++ [p])) ≤ bestEnd T wsi p := by
      unfold bestEnd
      apply le_maxOf_of_mem
      apply List.mem_map_of_mem
      rw [hlen1]
      exact hqs1
    have hle2 : bestEnd T wsi tstar = scoreFrom T "START" (wsi.zip (qs0 ++ [tstar])) := by
      unfold bestEnd
      rw [← heq]
    calc scoreFrom T "START" (wsi.zip (qs1 ++ [p])) ≤ bestEnd T wsi p := hle1
      _ ≤ bestEnd T wsi tstar := hmax p hp
      _ = scoreFrom T "START" (wsi.zip (qs0 ++ [tstar])) := hle2

/-- Witness for `viterbi_prefix_optimal` at the concrete model `T2`,
sentence `s2` and position 2. -/
theorem viterbi_prefix_optimal_witness :
    ∃ best ∈ tagSeqs T2.tags 2,
      best.getLast? = some ((viterbi_tag T2 s2).getD 2 ("", "")).2 ∧
      ∀ qs ∈ tagSeqs T2.tags 2,
        scoreFrom T2 "START" ((((s2.map Prod.fst).drop 1).take 2).zip qs) ≤
        scoreFrom T2 "START" ((((s2.map Prod.fst).drop 1).take 2).zip best) :=
  viterbi_prefix_optimal T2 s2 (by decide) 2 (by decide) (by decide)
